import Mathlib

/-!
Verification development for the round-robin OFDMA scheduler
(`rr-ofdma-manager.cc`).  The C++ functions are shallowly embedded as
executable Lean definitions: machine integers become `Nat` (all relevant
quantities are non-negative and far from overflow; the few places where a
C++ `int` can transiently dip below zero are only ever tested with `> 0`,
for which `Nat` truncation at zero is observationally equivalent), every
operation that is undefined behaviour or throws in the C++ code
(dereferencing an iterator past the end, `std::map::at` on a missing key,
a failing `NS_ASSERT` / `NS_FATAL_ERROR` / `NS_ABORT`) is modelled by an
`Option` result whose `none` marks that failure, and values obtained from
the external MAC/PHY collaborators (durations, queue contents, agreement
state) are inputs of the embedding.
-/

namespace RrOfdma

/-- The per-station info carried with a candidate (`DlPerStaInfo`). -/
structure DlPerStaInfo where
  aid : Nat
  tid : Nat
deriving DecidableEq, Repr

/-- A candidate receiver as stored in `m_dataInfo`:
`(MAC address, pending-frame size in bytes, per-station info)`.
MAC addresses are modelled as naturals. -/
abbrev Candidate := Nat × Nat × DlPerStaInfo

/-- Pending-frame size of a candidate (`std::get<1>`). -/
def csize (c : Candidate) : Nat := c.2.1

/-- MAC address of a candidate (`std::get<0>`). -/
def caddr (c : Candidate) : Nat := c.1

/-- The RU type enumeration (`HeRu::RuType`), in its C++ enumeration order. -/
inductive RuType where
  | RU26 | RU52 | RU106 | RU242 | RU484 | RU996 | RU2x996
deriving DecidableEq, Repr

open RuType

/-- Modelled from the spec: the external RU-definition table
`HeRu::m_heRuSubcarrierGroups` (an ordered map keyed by
`(bandwidth in MHz, RU type)`; the value kept here is the number of
subcarrier groups, i.e. the number of RU slots of that type, which is all
`GetNumberAndTypeOfRus` reads from it via `.size()`).  Following the spec,
the table holds definitions for 20, 40 and 80 MHz only — a 160 MHz channel
is handled by "doubling an 80 MHz RU definition's capacity" — with the
slot counts of IEEE 802.11ax Table 28-6, listed in the map's key order. -/
def heRuGroups : List ((Nat × RuType) × Nat) :=
  [((20, RU26), 9), ((20, RU52), 4), ((20, RU106), 2), ((20, RU242), 1),
   ((40, RU26), 18), ((40, RU52), 8), ((40, RU106), 4), ((40, RU242), 2), ((40, RU484), 1),
   ((80, RU26), 37), ((80, RU52), 16), ((80, RU106), 8), ((80, RU242), 4), ((80, RU484), 2),
   ((80, RU996), 1)]

/-- `HeRu::m_heRuSubcarrierGroups.at ({bandwidth, ruType}).size ()`:
`none` models the `std::out_of_range` thrown by `.at` on a missing key. -/
def lookupGroups (bw : Nat) (t : RuType) : Option Nat :=
  (heRuGroups.find? (fun e => e.1.1 == bw && e.1.2 == t)).map (·.2)

/-- The RU-slot capacity of a bandwidth: the largest number of stations an
allocation for that bandwidth can serve (the 26-tone slot count; doubled
for 160 MHz). -/
def ruSlotCapacity (bw : Nat) : Nat :=
  if bw = 20 then 9 else if bw = 40 then 18 else if bw = 80 then 37
  else if bw = 160 then 74 else 0

/-- The RU-selection scan of the degenerate branch (lines 624–638): walk
the table in order; take the first entry whose bandwidth matches and whose
slot count is at most `nStations`, or — at 160 MHz — the first 80 MHz
entry whose doubled slot count is at most `nStations`. -/
def findRu (bw n : Nat) : List ((Nat × RuType) × Nat) → Option (RuType × Nat)
  | [] => none
  | ((b, t), k) :: rest =>
    if b = bw ∧ k ≤ n then some (t, k)
    else if bw = 160 ∧ b = 80 ∧ 2 * k ≤ n then some (t, 2 * k)
    else findRu bw n rest

/-- Linear membership scan with early break over one of the class tables
(`bulksend1` / `onoff1` / `http1`). -/
def inL (a : Nat) (l : List Nat) : Bool := l.contains a

/-- Candidates put into `bulksend` by the classification loop
(lines 574–613): the `bulksend1` table is consulted first. -/
def classBulk (b1 : List Nat) (d : List Candidate) : List Candidate :=
  d.filter (fun c => inL (caddr c) b1)

/-- Candidates put into `onoff`: not in `bulksend1`, in `onoff1`. -/
def classOnoff (b1 o1 : List Nat) (d : List Candidate) : List Candidate :=
  d.filter (fun c => !inL (caddr c) b1 && inL (caddr c) o1)

/-- Candidates put into `http`: in none of the first two tables, in
`http1`.  A candidate matching no table is dropped from all three
classes (`flag` stays `0`). -/
def classHttp (b1 o1 h1 : List Nat) (d : List Candidate) : List Candidate :=
  d.filter (fun c => !inL (caddr c) b1 && !inL (caddr c) o1 && inL (caddr c) h1)

/-- The merging step of `merge` (lines 460–503) in functional form: the
two list arguments are the already-sorted halves `L` and `R`; while both
are non-empty the element with the not-smaller size is taken (ties take
the left half first), then the leftovers are drained.  The first argument
only bounds the number of placements so that the recursion is structural;
callers pass the exact total length, for which the `0` case with two
non-empty halves is unreachable. -/
def mergeRuns : Nat → List Candidate → List Candidate → List Candidate
  | _, [], r => r
  | _, l, [] => l
  | f + 1, a :: l, b :: r =>
    if csize b ≤ csize a then a :: mergeRuns f l (b :: r)
    else b :: mergeRuns f (a :: l) r
  | 0, l, r => l ++ r

/-- `merge_sort (v, p, r)` (lines 504–514) in functional form, for the
range `[0, v.size () - 1]`: a range of length `n ≥ 2` is split at
`q = (p + r) / 2`, i.e. into a first half of `(n - 1) / 2 + 1` elements
and the rest, each half is sorted recursively, and the halves are merged.
The first argument again only bounds the recursion depth; `mergeSortC`
passes the list length, which always suffices. -/
def mergeSortF : Nat → List Candidate → List Candidate
  | 0, v => v
  | f + 1, v =>
    if v.length ≤ 1 then v
    else
      let q := (v.length - 1) / 2
      mergeRuns v.length (mergeSortF f (v.take (q + 1))) (mergeSortF f (v.drop (q + 1)))

/-- `merge_sort (v, 0, v.size () - 1)` (lines 504–514 as called at
lines 615–619). -/
def mergeSortC (v : List Candidate) : List Candidate := mergeSortF v.length v

/-- Descending order of pending-frame size. -/
def SortedDesc (l : List Candidate) : Prop :=
  l.Pairwise (fun a b => csize b ≤ csize a)

/-- The buffer-status aggregation loop of `SelectTxFormat`
(lines 190–219).  One entry per station of the previous downlink TX
vector: `none` when the station is no longer in the associated-station
list (the loop logs and skips it), otherwise the `GetMaxBufferStatus`
code.  Code `255` contributes the configured `m_ulPsduSize`, code `254`
sets the estimate to `0xffffffff` and breaks out of the loop, any other
code `v` contributes `v * 256`; contributions are combined with
`std::max` into the accumulator. -/
def computeMaxBufferSize (ulPsduSize : Nat) : List (Option Nat) → Nat → Nat
  | [], acc => acc
  | none :: rest, acc => computeMaxBufferSize ulPsduSize rest acc
  | some code :: rest, acc =>
    if code = 255 then computeMaxBufferSize ulPsduSize rest (max acc ulPsduSize)
    else if code = 254 then 4294967295
    else computeMaxBufferSize ulPsduSize rest (max acc (code * 256))

/-- The spec's description of one decoded report: `255` = "at least one
configured minimum PSDU size", otherwise `v × 256` bytes. -/
def specDecode (ulPsduSize code : Nat) : Nat :=
  if code = 255 then ulPsduSize else code * 256

/-- `while (a >= 52 && size3 > 0) { a -= 52; allocated52 += 1; size3 -= 1; }`
(lines 705–711) as a function of `(a, size3)` — recursion is structural on
`size3`, which the loop body decrements alongside `a`.  Returns
`(allocated52, a, size3)` on exit. -/
def loop52 (a : Nat) : Nat → Nat × Nat × Nat
  | 0 => (0, a, 0)
  | s3 + 1 =>
    if 52 ≤ a then
      let r := loop52 (a - 52) s3
      (r.1 + 1, r.2.1, r.2.2)
    else (0, a, s3 + 1)

/-- `while (a >= 26 && size4 > 0) { a -= 26; allocated26 += 1; size4 -= 1; }`
(lines 712–717), returning `(added 26-tone units, a, size4)` on exit. -/
def loop26 (a : Nat) : Nat → Nat × Nat × Nat
  | 0 => (0, a, 0)
  | s4 + 1 =>
    if 26 ≤ a then
      let r := loop26 (a - 26) s4
      (r.1 + 1, r.2.1, r.2.2)
    else (0, a, s4 + 1)

/-- The budget phase of the mixed small-class branch (lines 699–717):
starting from `a = 242 - 26*size2` and `allocated26 = size2`, reserve one
106-tone unit for a class member from `bulksend` if the budget allows,
then 52-tone units for `bulksend` members, then extra 26-tone units for
`http` members.  Returns `(allocated106, allocated52, the number of
26-tone units added beyond size2, the remaining budget a)`. -/
def phase1 (size2 size3 size4 : Nat) : Nat × Nat × Nat × Nat :=
  let a0 := 242 - 26 * size2
  let r106 :=
    if 106 ≤ a0 ∧ 0 < size3 then (1, a0 - 106, size3 - 1) else (0, a0, size3)
  let r52 := loop52 r106.2.1 r106.2.2
  let r26 := loop26 r52.2.1 size4
  (r106.1, r52.1, r26.1, r26.2.1)

/-- State shared by the emission loops of the mixed branch: the candidates
pushed to `m_dataInfo` so far, the RU entries pushed to `ruAssigned` so
far, the part of the class vector not yet consumed by its iterator, the
remaining loop counter and the running RU index. -/
structure EmitState where
  data : List Candidate
  entries : List (RuType × Nat)
  rest : List Candidate
  cnt : Nat
  idx : Nat
deriving Repr

/-- One of the two `u`-bounded loops at lines 745–761: while the class
vector has members and `u > 0`, move one member to `m_dataInfo` and emit a
26-tone entry at the running index. -/
def uLoop (l : List Candidate) (u idx : Nat) : EmitState :=
  match l, u with
  | _, 0 => ⟨[], [], l, 0, idx⟩
  | [], u' => ⟨[], [], [], u', idx⟩
  | x :: xs, u' + 1 =>
    let r := uLoop xs u' (idx + 1)
    ⟨x :: r.data, (RU26, idx) :: r.entries, r.rest, r.cnt, r.idx⟩

/-- The loop at lines 784–793: emit exactly `cnt` entries of type `t` at
indices `idx, idx+1, …`, consuming one member of `l` per entry; `none`
models the iterator dereferencing past the end of `l`. -/
def emitCount (t : RuType) (idx cnt : Nat) (l : List Candidate) :
    Option (List Candidate × List (RuType × Nat) × List Candidate) :=
  match cnt, l with
  | 0, l => some ([], [], l)
  | _ + 1, [] => none
  | c + 1, x :: xs =>
    (emitCount t (idx + 1) c xs).map fun r => (x :: r.1, (t, idx) :: r.2.1, r.2.2)

/-- One of the two loops at lines 794–813: while the 26-tone counter is
positive and the class vector has members, move one member to
`m_dataInfo` and emit a 26-tone entry at the running index. -/
def emit26B (idx cnt : Nat) (l : List Candidate) : EmitState :=
  match cnt, l with
  | 0, l => ⟨[], [], l, 0, idx⟩
  | c + 1, [] => ⟨[], [], [], c + 1, idx⟩
  | c + 1, x :: xs =>
    let r := emit26B (idx + 1) c xs
    ⟨x :: r.data, (RU26, idx) :: r.entries, r.rest, r.cnt, r.idx⟩

/-- The odd 26-tone fix-up (lines 763–780): when the 26-tone unit count
is odd, one more member — the next unconsumed `onoff` member if any
remains, else the next `http` member — is moved to `m_dataInfo` with a
26-tone entry at the fixed index 5; `none` models the unguarded
dereference when both iterators are exhausted. -/
def oddFix (allocated26 : Nat) (on1 ht1 : List Candidate) :
    Option (List Candidate × List (RuType × Nat) ×
      List Candidate × List Candidate) :=
  if allocated26 % 2 ≠ 0 then
    match on1, ht1 with
    | x :: xs, _ => some ([x], [(RU26, 5)], xs, ht1)
    | [], y :: ys => some ([y], [(RU26, 5)], [], ys)
    | [], [] => none
  else some ([], [], on1, ht1)

/-- The tail of the mixed small-class branch, after the first-member
assignment of lines 734–762 produced the initial `m_dataInfo` prefix
`d1`, the initial `ruAssigned` prefix `e1`, the unconsumed parts `on1` /
`ht1` of the `onoff` / `http` iterators and the adjusted 52-tone counter
`n52rem`: the odd 26-tone fix-up at index 5 (lines 763–780), the
remaining 52-tone emissions at indices from 3 (lines 781–793), the
remaining 26-tone emissions at indices from 6 or 8 (lines 794–813), and
the trailing copy of all leftovers (lines 814–816). -/
def mixedTail (allocated26 n52rem : Nat) (d1 : List Candidate)
    (e1 : List (RuType × Nat)) (on1 ht1 brest : List Candidate) :
    Option (List (RuType × Nat) × List Candidate) :=
  match oddFix allocated26 on1 ht1 with
  | none => none
  | some (d2, e2, on2, ht2) =>
    let allocated26' := if allocated26 % 2 ≠ 0 then allocated26 - 1 else allocated26
    let in2 := if 0 < n52rem then 8 else 6
    match emitCount RU52 3 n52rem brest with
    | none => none
    | some (d3, e3, brem) =>
      let r4 := emit26B in2 allocated26' on2
      let r5 := emit26B r4.idx r4.cnt ht2
      some (e1 ++ e2 ++ e3 ++ r4.entries ++ r5.entries,
        d1 ++ d2 ++ d3 ++ r4.data ++ r5.data ++ r4.rest ++ brem ++ r5.rest)

/-- The mixed small-class branch of `GetNumberAndTypeOfRus`
(lines 697–822), over the three sorted class vectors.  Returns the
`ruAssigned` sequence and the rewritten `m_dataInfo`; `none` models an
iterator dereferencing past the end of its vector. -/
def mixedBranch (onoff bulksend http : List Candidate) :
    Option (List (RuType × Nat) × List Candidate) :=
  let p := phase1 onoff.length bulksend.length http.length
  let allocated106 := p.1
  let n52 := p.2.1
  let allocated26 := onoff.length + p.2.2.1
  match bulksend with
  | [] => none
  | b0 :: brest =>
    -- first-member assignment (lines 734–762)
    if 0 < allocated106 then
      mixedTail allocated26 n52 [b0] [(RU106, 1)] onoff http brest
    else
      let r1 := uLoop onoff 2 3
      let r2 := uLoop http r1.cnt r1.idx
      mixedTail allocated26 (n52 - 1) (b0 :: (r1.data ++ r2.data))
        ((RU52, 1) :: (r1.entries ++ r2.entries)) r1.rest r2.rest brest

/-- The dereference-checked prefix used by the overflow branch: the loop
at lines 672–674 copies `n` elements from the `bulksend` iterator;
`none` models the dereference past the end when `bulksend` has fewer
than `n` members. -/
def takeExact (l : List Candidate) (n : Nat) : Option (List Candidate) :=
  if n ≤ l.length then some (l.take n) else none

/-- `RrOfdmaManager::GetNumberAndTypeOfRus` (lines 556–825).  Arguments:
the three external class-membership tables, the channel bandwidth, the
`nStations` reference (never written back — both write-backs in the
source are commented out), and the current `m_dataInfo`.  Returns the
`ruAssigned` vector together with the rewritten `m_dataInfo`, or `none`
when the C++ code throws (`std::map::at` on a missing key), fails an
`NS_ASSERT`, or dereferences an iterator past the end. -/
def getNumberAndTypeOfRus (b1 o1 h1 : List Nat) (bandwidth nStations : Nat)
    (dataInfo : List Candidate) : Option (List (RuType × Nat) × List Candidate) :=
  let onoffS := mergeSortC (classOnoff b1 o1 dataInfo)
  let bulkS := mergeSortC (classBulk b1 dataInfo)
  let httpS := mergeSortC (classHttp b1 o1 h1 dataInfo)
  let size2 := (classOnoff b1 o1 dataInfo).length
  let size3 := (classBulk b1 dataInfo).length
  let size4 := (classHttp b1 o1 h1 dataInfo).length
  if size3 = 0 ∨ size2 + size3 + size4 ≤ 1 then
    -- degenerate branch (lines 620–659)
    let emitDegen : RuType → Option (List (RuType × Nat) × List Candidate) :=
      fun t =>
        match lookupGroups bandwidth t with
        | none => none
        | some sz =>
          some ((List.range sz).map (fun i => (t, i + 1)), onoffS ++ bulkS ++ httpS)
    match findRu bandwidth nStations heRuGroups with
    | some (t, _) => emitDegen t
    | none =>
      if bandwidth = 160 ∧ nStations = 1 then emitDegen RU2x996 else none
  else if 7 < size2 then
    -- overflow branch (lines 665–696): `m_dataInfo` gets all of `onoff`,
    -- then `size2` elements read off the `bulksend` iterator, then all of
    -- `http`; the RU type is the one of the first table entry.
    match takeExact bulkS size2 with
    | none => none
    | some bpart =>
      match heRuGroups with
      | [] => none
      | ((_, t0), _) :: _ =>
        match lookupGroups bandwidth t0 with
        | none => none
        | some sz =>
          some ((List.range sz).map (fun i => (t0, i + 1)), onoffS ++ bpart ++ httpS)
  else
    mixedBranch onoffS bulkS httpS

/-- The transmission format returned by `SelectTxFormat`
(`OfdmaTxFormat`). -/
inductive OfdmaTxFormat where
  | DL_OFDMA | UL_OFDMA | NON_OFDMA
deriving DecidableEq, Repr

open OfdmaTxFormat

/-- External facts about one traffic identifier examined for a candidate
station in the selection loop (lines 389–436): the TID value, whether the
TID is considered at all (`ac >= primaryAc` and a block-ack agreement is
established), whether `PeekNextFrame` returns a frame, and whether that
frame passes `IsWithinSizeAndTimeLimits` for the tentatively assigned
RU. -/
structure TidScan where
  tid : Nat
  considered : Bool
  hasMpdu : Bool
  fits : Bool
deriving DecidableEq, Repr

/-- One associated station as visited by the selection loop, with the
outcomes of the external queries for the nine TIDs in examination order. -/
structure StaScan where
  aid : Nat
  addr : Nat
  tids : List TidScan
deriving DecidableEq, Repr

/-- The per-station TID loop (lines 388–436).  `ruIt` starts at
`ruType.begin ()` and is incremented once per examined TID that does not
`break`; when a considered TID has a queued frame, `ruIt->first` is
dereferenced (at index `i` of the tentative RU list) to build the
tentative TX vector — with no bounds check, so the lookup is an `Option`
and `none` models the dereference past the end of the list.  `some none`
means the station is not selected, `some (some tid)` that it is selected
for `tid`. -/
def scanTids (rus : List (RuType × Nat)) (i : Nat) :
    List TidScan → Option (Option Nat)
  | [] => some none
  | t :: rest =>
    if t.considered then
      if t.hasMpdu then
        match rus.get? i with
        | none => none
        | some _ => if t.fits then some (some t.tid) else scanTids rus (i + 1) rest
      else scanTids rus (i + 1) rest
    else scanTids rus (i + 1) rest

/-- The station-selection loop (lines 384–444): visit the associated
stations in round-robin order starting at the cursor (each at most once),
appending a `(address, {aid, tid})` pair to `m_staInfo` for every station
whose TID scan selects it, and stopping when `m_nStations` entries were
collected. -/
def selectLoop (nStations : Nat) (rus : List (RuType × Nat)) :
    List StaScan → List (Nat × DlPerStaInfo) → Option (List (Nat × DlPerStaInfo))
  | [], acc => some acc
  | s :: rest, acc =>
    if acc.length < nStations then
      match scanTids rus 0 s.tids with
      | none => none
      | some none => selectLoop nStations rus rest acc
      | some (some tid) => selectLoop nStations rus rest (acc ++ [(s.addr, ⟨s.aid, tid⟩)])
    else some acc

/-- The inputs of one `SelectTxFormat` decision: the configuration
attributes, the previous decision's format, and the outcomes of every
external MAC/PHY query the code makes (buffer-status reports of the
stations of the previous downlink TX vector, duration comparisons,
associated stations with their queue states). -/
structure Env where
  enableUlOfdma : Bool
  prevFormat : OfdmaTxFormat
  ulPsduSize : Nat
  ulAckIsMultiSta : Bool
  reports : List (Option Nat)
  prevStaInfo : List (Nat × DlPerStaInfo)
  txopHeldUl : Bool
  ulResponseExceedsRemaining : Bool
  ulBufferTxTimeLtMaxDuration : Bool
  ulMaxDurationLtMinDuration : Bool
  bandwidth : Nat
  nStations : Nat
  bulksend1 : List Nat
  onoff1 : List Nat
  http1 : List Nat
  dlTxopHeld : Bool
  dlTxopNegative : Bool
  forceDlOfdma : Bool
  staScan : List StaScan
deriving Repr

/-- The feasibility tail of the uplink-reuse path (lines 222–305),
entered with a positive aggregate buffer estimate: an exhausted TXOP
abandons the attempt with `DL_OFDMA` and cleared candidate state, an
available duration too short for even `m_ulPsduSize` does the same, and
otherwise the computed duration is committed and `UL_OFDMA` returned
(with `m_staInfo` untouched from the previous downlink round). -/
def ulPath (e : Env) : Option (OfdmaTxFormat × List (Nat × DlPerStaInfo)) :=
  if e.txopHeldUl ∧ e.ulResponseExceedsRemaining then some (DL_OFDMA, [])
  else if e.ulBufferTxTimeLtMaxDuration then some (UL_OFDMA, e.prevStaInfo)
  else if e.ulMaxDurationLtMinDuration then some (DL_OFDMA, [])
  else some (UL_OFDMA, e.prevStaInfo)

/-- The downlink path of `SelectTxFormat` (lines 308–458): reset the
cursor if needed (`none` models the dereference of `begin ()` on an empty
associated-station table), compute the tentative RU list for an empty
`m_dataInfo`, check the remaining-TXOP budget, run the selection loop,
and resolve an empty batch by policy.  The returned list is `m_staInfo`
at the return point. -/
def dlPath (e : Env) : Option (OfdmaTxFormat × List (Nat × DlPerStaInfo)) :=
  if e.staScan.isEmpty then none
  else
    match getNumberAndTypeOfRus e.bulksend1 e.onoff1 e.http1 e.bandwidth e.nStations [] with
    | none => none
    | some (rus, _) =>
      if e.nStations = 0 then none  -- NS_ASSERT (count >= 1)
      else if e.dlTxopHeld ∧ e.dlTxopNegative then
        some ((if e.forceDlOfdma then DL_OFDMA else NON_OFDMA), [])
      else
        match selectLoop e.nStations rus e.staScan [] with
        | none => none
        | some batch =>
          if batch.isEmpty then
            some ((if e.forceDlOfdma then DL_OFDMA else NON_OFDMA), [])
          else some (DL_OFDMA, batch)

/-- `RrOfdmaManager::SelectTxFormat` (lines 136–459).  `none` models the
`NS_ABORT` on a zero `UlPsduSize`, the `NS_FATAL_ERROR` on an unsupported
uplink acknowledgment sequence, and the failures inside the downlink
path. -/
def selectTxFormat (e : Env) : Option (OfdmaTxFormat × List (Nat × DlPerStaInfo)) :=
  if e.enableUlOfdma ∧ e.prevFormat = DL_OFDMA then
    if e.ulPsduSize = 0 then none
    else if ¬ e.ulAckIsMultiSta then none
    else if 0 < computeMaxBufferSize e.ulPsduSize e.reports 0 then ulPath e
    else dlPath e
  else dlPath e

/-- Ordered insertion into the `std::map<Mac48Address, DlPerStaInfo>`
built by `ComputeDlOfdmaInfo` (`insert` keeps the existing value on a
duplicate key). -/
def mapInsert (k : Nat) (v : DlPerStaInfo) :
    List (Nat × DlPerStaInfo) → List (Nat × DlPerStaInfo)
  | [] => [(k, v)]
  | (k', v') :: rest =>
    if k < k' then (k, v) :: (k', v') :: rest
    else if k = k' then (k', v') :: rest
    else (k', v') :: mapInsert k v rest

/-- The station map of `dlOfdmaInfo.staInfo`, in its iteration order
(sorted by MAC address). -/
def mapInsertList (l : List (Nat × DlPerStaInfo)) : List (Nat × DlPerStaInfo) :=
  l.foldl (fun m kv => mapInsert kv.1 kv.2 m) []

/-- The inner RU-assignment loop of `ComputeDlOfdmaInfo` (lines 903–912):
`n` iterations for one `primary80MHz` flag, dereferencing the station-map
iterator and the `ruAssigned` iterator at the running position `p` and
advancing both; `none` models a failing `NS_ASSERT (mapIt != end)` or a
dereference past the end of `ruAssigned`. -/
def assignInner (pr : Bool) (sta : List (Nat × DlPerStaInfo))
    (rus : List (RuType × Nat)) : Nat → Nat →
    Option (List (Bool × RuType × Nat × Nat))
  | _, 0 => some []
  | p, m + 1 =>
    match sta.get? p, rus.get? p with
    | some s, some r =>
      (assignInner pr sta rus (p + 1) m).map
        (fun l => (pr, r.1, r.2, s.2.aid) :: l)
    | _, _ => none

/-- The RU-assignment nest of `ComputeDlOfdmaInfo` (lines 889–913): one
pass of `nRusAssigned` assignments per entry of `primary80MHzSet`
(`[true]`, or `[true, false]` at 160 MHz), with the two iterators running
on across passes.  Produces the `(primary80MHz, RU type, RU index, AID)`
assignments in order. -/
def assignLoop (bw : Nat) (sta : List (Nat × DlPerStaInfo))
    (rus : List (RuType × Nat)) : Option (List (Bool × RuType × Nat × Nat)) :=
  let n := rus.length
  if bw = 160 then
    match assignInner true sta rus 0 n with
    | none => none
    | some l1 =>
      match assignInner false sta rus n n with
      | none => none
      | some l2 => some (l1 ++ l2)
  else assignInner true sta rus 0 n

/-- `RrOfdmaManager::ComputeDlOfdmaInfo` (lines 831–931), reduced to the
RU-assignment part the claims are about: an empty `m_staInfo` returns an
empty info, otherwise `GetNumberAndTypeOfRus` is called with
`nStations = m_dataInfo.size ()`, the first `nRusAssigned` rewritten
candidates populate the station map, and the assignment nest pairs them
with the RU entries.  `none` models a failing `NS_ASSERT` or iterator
overrun on the way. -/
def computeDlOfdmaInfo (b1 o1 h1 : List Nat) (bw : Nat)
    (dataInfo : List Candidate) : Option (List (Bool × RuType × Nat × Nat)) :=
  if dataInfo.isEmpty then some []
  else
    match getNumberAndTypeOfRus b1 o1 h1 bw dataInfo.length dataInfo with
    | none => none
    | some (rus, d') =>
      let n := rus.length
      if d'.length < n then none  -- NS_ASSERT (staInfoIt != m_dataInfo.end ())
      else
        let sta := mapInsertList ((d'.take n).map (fun c => (caddr c, c.2.2)))
        assignLoop bw sta rus

/-- The spec's description of the aggregate pending-byte estimate: if any
still-associated station reports `254` the estimate is the unbounded
maximum, discarding all other reports; otherwise it is the maximum of the
decoded reports of the still-associated stations (stations that left are
skipped). -/
def specAggregate (ulPsduSize : Nat) (reports : List (Option Nat)) : Nat :=
  if (reports.filterMap id).contains 254 then 4294967295
  else ((reports.filterMap id).map (specDecode ulPsduSize)).foldr max 0

/-! ### Concrete instances used by witnesses and counterexamples -/

/-- A candidate with address `a`, pending size `s`, AID `a` and TID 0. -/
def mkC (a s : Nat) : Candidate := (a, s, ⟨a, 0⟩)

/-- A four-entry tentative RU list, as produced for a 20 MHz channel with
`NStations = 4`. -/
def rusFour : List (RuType × Nat) := [(RU52, 1), (RU52, 2), (RU52, 3), (RU52, 4)]

/-- Five examined TIDs whose first four are not considered (no block-ack
agreement) and whose fifth is considered and has a queued frame. -/
def tidsFive : List TidScan :=
  [⟨1, false, false, false⟩, ⟨2, false, false, false⟩, ⟨0, false, false, false⟩,
   ⟨3, false, false, false⟩, ⟨4, true, true, true⟩]

/-- An environment taking the uplink-reuse path with a zero aggregate
buffer estimate (the single station reports code 0), one associated
station with nothing to send, and `ForceDlOfdma` disabled. -/
def envC2 : Env where
  enableUlOfdma := true
  prevFormat := OfdmaTxFormat.DL_OFDMA
  ulPsduSize := 500
  ulAckIsMultiSta := true
  reports := [some 0]
  prevStaInfo := []
  txopHeldUl := false
  ulResponseExceedsRemaining := false
  ulBufferTxTimeLtMaxDuration := false
  ulMaxDurationLtMinDuration := false
  bandwidth := 20
  nStations := 4
  bulksend1 := []
  onoff1 := []
  http1 := []
  dlTxopHeld := false
  dlTxopNegative := false
  forceDlOfdma := false
  staScan := [⟨1, 1, []⟩]

/-- An environment on the downlink path (uplink reuse disabled) whose
only associated station has no eligible traffic, so the selected batch is
empty. -/
def envC9 : Env where
  enableUlOfdma := false
  prevFormat := OfdmaTxFormat.NON_OFDMA
  ulPsduSize := 500
  ulAckIsMultiSta := true
  reports := []
  prevStaInfo := []
  txopHeldUl := false
  ulResponseExceedsRemaining := false
  ulBufferTxTimeLtMaxDuration := false
  ulMaxDurationLtMinDuration := false
  bandwidth := 20
  nStations := 4
  bulksend1 := []
  onoff1 := []
  http1 := []
  dlTxopHeld := false
  dlTxopNegative := false
  forceDlOfdma := false
  staScan := [⟨1, 1, []⟩]

/-- Class-membership tables and candidate batches used by concrete
instances: addresses 1–8 are onoff-class, 9–16 bulksend-class. -/
def oEight : List Nat := [1, 2, 3, 4, 5, 6, 7, 8]

/-- The one-entry bulksend table holding address 9. -/
def bOne : List Nat := [9]

/-- The bulksend table holding addresses 9–16. -/
def bEight : List Nat := [9, 10, 11, 12, 13, 14, 15, 16]

/-- Nine candidates with addresses 1–9 and equal pending sizes. -/
def dNine : List Candidate := (List.range 9).map (fun i => mkC (i + 1) 100)

/-- Sixteen candidates with addresses 1–16 and equal pending sizes. -/
def dSixteen : List Candidate := (List.range 16).map (fun i => mkC (i + 1) 100)

/-- Two candidates, one bulksend-class (address 1) and one onoff-class
(address 2). -/
def dPair : List Candidate := [mkC 1 50, mkC 2 60]

/-! ## Theorems -/

/-- Closed form of the buffer-status aggregation loop, for any
accumulator value. -/
theorem computeMaxBufferSize_eq (p : Nat) :
    ∀ (reports : List (Option Nat)) (acc : Nat),
      computeMaxBufferSize p reports acc =
        if (reports.filterMap id).contains 254 then 4294967295
        else max acc (((reports.filterMap id).map (specDecode p)).foldr max 0) := by
  intro reports
  induction reports with
  | nil => intro acc; simp [computeMaxBufferSize]
  | cons hd tl ih =>
    intro acc
    cases hd with
    | none =>
      have hfm : List.filterMap id (none :: tl) = List.filterMap id tl := rfl
      rw [hfm]
      simpa only [computeMaxBufferSize] using ih acc
    | some code =>
      have hfm : List.filterMap id (some code :: tl) = code :: List.filterMap id tl := rfl
      rw [hfm]
      simp only [List.contains_cons, List.map_cons, List.foldr_cons]
      by_cases h254 : code = 254
      · subst h254
        simp [computeMaxBufferSize]
      · have hbeq : ((254 : Nat) == code) = false := by
          simp [Ne.symm h254]
        rw [hbeq]
        simp only [Bool.false_or]
        by_cases h255 : code = 255
        · subst h255
          simp only [computeMaxBufferSize, if_pos rfl]
          rw [ih (max acc p)]
          by_cases hc : (List.filterMap id tl).contains 254
          · simp at hc; simp [hc]
          · simp at hc; simp [hc, specDecode, Nat.max_assoc]
        · simp only [computeMaxBufferSize, h255, h254, if_false]
          rw [ih (max acc (code * 256))]
          by_cases hc : (List.filterMap id tl).contains 254
          · simp at hc; simp [hc]
          · simp at hc; simp [hc, specDecode, h255, Nat.max_assoc]

/-- C3: in the uplink-reuse path, the aggregate pending-byte estimate is
computed over the still-associated stations of the previous downlink
allocation (stations that left are skipped, not fatal); any report of
code 254 makes the estimate the unbounded maximum, discarding all other
reports, and otherwise the estimate is the maximum over stations of the
configured minimum uplink PSDU size for code 255 and of `code × 256`
bytes for any other code. -/
theorem claim_C3 (psdu : Nat) (reports : List (Option Nat)) :
    computeMaxBufferSize psdu reports 0 = specAggregate psdu reports := by
  rw [computeMaxBufferSize_eq, specAggregate]
  by_cases hc : (reports.filterMap id).contains 254 <;> simp [hc]

/-- The TID scan dereferences past the end of the tentative RU list as
soon as a considered TID with a queued frame is examined at a position
not below the list length. -/
theorem scanTids_overrun (rus : List (RuType × Nat)) :
    ∀ (tids : List TidScan) (i k : Nat),
      rus.length ≤ i + k →
      ((tids.take k).all fun t => !(t.considered && t.hasMpdu)) = true →
      (∃ t, tids.get? k = some t ∧ t.considered = true ∧ t.hasMpdu = true) →
      scanTids rus i tids = none := by
  intro tids
  induction tids with
  | nil =>
    intro i k _ _ hat
    rcases hat with ⟨t, ht, -, -⟩
    simp at ht
  | cons t0 rest ih =>
    intro i k hlen hall hat
    cases k with
    | zero =>
      rcases hat with ⟨t, ht, hc, hm⟩
      simp only [List.get?] at ht
      cases ht
      have hnone : rus[i]? = none := List.getElem?_eq_none (by omega)
      simp [scanTids, hc, hm, hnone]
    | succ k' =>
      have hall2 : ((t0.considered && t0.hasMpdu) = false) ∧
          ((rest.take k').all fun t => !(t.considered && t.hasMpdu)) = true := by
        simp only [List.take_succ_cons, List.all_cons, Bool.and_eq_true,
          Bool.not_eq_true'] at hall
        exact hall
      have hat' : ∃ t, rest.get? k' = some t ∧ t.considered = true ∧ t.hasMpdu = true := by
        simpa only [List.get?] using hat
      have hrec := ih (i + 1) k' (by omega) hall2.2 hat'
      by_cases hc : t0.considered = true
      · have hm : t0.hasMpdu = false := by
          cases hmb : t0.hasMpdu
          · rfl
          · rw [hc, hmb] at hall2
            exact absurd hall2.1 (by simp)
        simp [scanTids, hc, hm, hrec]
      · have hc' : t0.considered = false := by
          cases hcb : t0.considered
          · rfl
          · exact absurd hcb hc
        simp [scanTids, hc', hrec]

/-- C10: in the candidate-selection loop of `SelectTxFormat`, the
iterator over the tentative RU-type list is advanced once per examined
traffic identifier with no bounds check; whenever the first `k` examined
identifiers of a station select nothing, the `k`-th identifier is
considered and has a queued frame, and `k` is not below the RU list's
length, the tentative RU assignment dereferences past the end of the
list — in the total embedding the lookup returns an `Option` whose `none`
branch is reached. -/
theorem claim_C10 (rus : List (RuType × Nat)) (tids : List TidScan) (k : Nat)
    (hk : rus.length ≤ k)
    (hbefore : ((tids.take k).all fun t => !(t.considered && t.hasMpdu)) = true)
    (hat : ∃ t, tids.get? k = some t ∧ t.considered = true ∧ t.hasMpdu = true) :
    scanTids rus 0 tids = none :=
  scanTids_overrun rus tids 0 k (by omega) hbefore hat

/-- Witness for C10: with the four-slot 20 MHz RU list and a station whose
first four TIDs have no block-ack agreement while the fifth has a queued
frame, the scan reaches the out-of-range lookup. -/
theorem claim_C10_witness :
    rusFour.length ≤ 4 ∧
      ((tidsFive.take 4).all fun t => !(t.considered && t.hasMpdu)) = true ∧
      scanTids rusFour 0 tidsFive = none :=
  ⟨by decide, by decide,
    claim_C10 rusFour tidsFive 4 (by decide) (by decide)
      ⟨⟨4, true, true, true⟩, by decide, rfl, rfl⟩⟩

/-- The downlink path never returns `UL_OFDMA`. -/
theorem dlPath_no_ul (e : Env) (f : OfdmaTxFormat) (s : List (Nat × DlPerStaInfo))
    (h : dlPath e = some (f, s)) : f ≠ OfdmaTxFormat.UL_OFDMA := by
  intro hful
  subst hful
  unfold dlPath at h
  repeat' split at h
  all_goals simp_all

/-- C2 counterexample: an invocation on the uplink-reuse path whose
single buffer-status report decodes to zero pending bytes falls through
to the downlink path and returns `NON_OFDMA` (the batch is empty and
`ForceDlOfdma` is off), not `DL_OFDMA` as the claim states. -/
theorem claim_C2_counterexample :
    envC2.enableUlOfdma = true ∧ envC2.prevFormat = OfdmaTxFormat.DL_OFDMA ∧
      computeMaxBufferSize envC2.ulPsduSize envC2.reports 0 = 0 ∧
      selectTxFormat envC2 = some (OfdmaTxFormat.NON_OFDMA, []) ∧
      OfdmaTxFormat.NON_OFDMA ≠ OfdmaTxFormat.DL_OFDMA := by
  refine ⟨rfl, rfl, by decide, by decide, by decide⟩

/-- C2 (amended): on the uplink-reuse path, a zero aggregate pending-byte
estimate makes `SelectTxFormat` fall through to the downlink path, so the
returned format is never `UL_OFDMA` (it may be `DL_OFDMA` or
`NON_OFDMA`). -/
theorem claim_C2_amended (e : Env) (f : OfdmaTxFormat) (s : List (Nat × DlPerStaInfo))
    (hen : e.enableUlOfdma = true) (hprev : e.prevFormat = OfdmaTxFormat.DL_OFDMA)
    (hzero : computeMaxBufferSize e.ulPsduSize e.reports 0 = 0)
    (h : selectTxFormat e = some (f, s)) : f ≠ OfdmaTxFormat.UL_OFDMA := by
  unfold selectTxFormat at h
  rw [hzero] at h
  simp only [hen, hprev, and_self, if_true, Nat.lt_irrefl, if_false] at h
  split at h
  · exact absurd h (by simp)
  · split at h
    · exact absurd h (by simp)
    · exact dlPath_no_ul e f s h

/-- Witness for C2 (amended): the environment of the counterexample
satisfies the hypotheses, and the returned `NON_OFDMA` is not
`UL_OFDMA`. -/
theorem claim_C2_witness :
    selectTxFormat envC2 = some (OfdmaTxFormat.NON_OFDMA, []) ∧
      OfdmaTxFormat.NON_OFDMA ≠ OfdmaTxFormat.UL_OFDMA :=
  ⟨by decide, claim_C2_amended envC2 OfdmaTxFormat.NON_OFDMA [] rfl rfl (by decide) (by decide)⟩

/-- C9: on the downlink path (with a non-empty associated-station table, a
successful tentative RU computation and a positive `NStations`), a
negative remaining-TXOP budget or an empty selected batch yields
`NON_OFDMA` when `ForceDlOfdma` is off and `DL_OFDMA` with an empty set of
receiver stations when it is on — in both cases a defined result, never an
error. -/
theorem claim_C9 (e : Env) (rus : List (RuType × Nat)) (d2 : List Candidate)
    (hru : getNumberAndTypeOfRus e.bulksend1 e.onoff1 e.http1 e.bandwidth e.nStations []
      = some (rus, d2))
    (hsta : e.staScan ≠ []) (hn : e.nStations ≠ 0)
    (hcase : (e.dlTxopHeld = true ∧ e.dlTxopNegative = true) ∨
      selectLoop e.nStations rus e.staScan [] = some []) :
    dlPath e = some ((if e.forceDlOfdma then OfdmaTxFormat.DL_OFDMA
      else OfdmaTxFormat.NON_OFDMA), []) := by
  have hemp : e.staScan.isEmpty = false := by
    cases hsc : e.staScan
    · exact absurd hsc hsta
    · rfl
  unfold dlPath
  rw [hemp, hru]
  simp only [Bool.false_eq_true, if_false, hn, if_false]
  by_cases htx : e.dlTxopHeld = true ∧ e.dlTxopNegative = true
  · simp [htx]
  · rcases hcase with htx' | hloop
    · exact absurd htx' htx
    · simp [htx, hloop]

/-- Witness for C9: a downlink invocation whose only station has no
eligible traffic returns `NON_OFDMA` with an empty station set. -/
theorem claim_C9_witness :
    dlPath envC9 = some ((if envC9.forceDlOfdma then OfdmaTxFormat.DL_OFDMA
      else OfdmaTxFormat.NON_OFDMA), []) :=
  claim_C9 envC9 rusFour [] (by decide) (by decide) (by decide) (Or.inr (by decide))

/-- Merging permutes the concatenation of the two halves. -/
theorem mergeRuns_perm (f : Nat) : ∀ (l r : List Candidate), (mergeRuns f l r).Perm (l ++ r) := by
  induction f with
  | zero => intro l r; cases l <;> cases r <;> simp [mergeRuns]
  | succ f ih =>
    intro l r
    cases l with
    | nil => simp [mergeRuns]
    | cons a l' =>
      cases r with
      | nil => simp [mergeRuns]
      | cons b r' =>
        by_cases hcmp : csize b ≤ csize a
        · simpa [mergeRuns, hcmp] using (ih l' (b :: r')).cons a
        · have h1 := (ih (a :: l') r').cons b
          have h2 : (b :: ((a :: l') ++ r')).Perm ((a :: l') ++ b :: r') :=
            List.perm_middle.symm
          simpa [mergeRuns, hcmp] using h1.trans h2

/-- Merging two sorted halves with enough fuel is sorted. -/
theorem mergeRuns_sorted (f : Nat) :
    ∀ (l r : List Candidate), SortedDesc l → SortedDesc r →
      l.length + r.length ≤ f → SortedDesc (mergeRuns f l r) := by
  induction f with
  | zero =>
    intro l r hl _ hlen
    cases l <;> cases r <;> simp_all [mergeRuns, SortedDesc]
  | succ f ih =>
    intro l r hl hr hlen
    cases l with
    | nil => simpa [mergeRuns] using hr
    | cons a l' =>
      cases r with
      | nil => simpa [mergeRuns] using hl
      | cons b r' =>
        have hla := List.pairwise_cons.mp hl
        have hrb := List.pairwise_cons.mp hr
        by_cases hcmp : csize b ≤ csize a
        · have hrec := ih l' (b :: r') hla.2 hr (by simp at hlen ⊢; omega)
          simp only [mergeRuns, if_pos hcmp]
          refine List.pairwise_cons.mpr ⟨?_, hrec⟩
          intro x hx
          have hx' : x ∈ l' ++ b :: r' := (mergeRuns_perm f l' (b :: r')).mem_iff.mp hx
          rcases List.mem_append.mp hx' with hxl | hxr
          · exact hla.1 x hxl
          · rcases List.mem_cons.mp hxr with rfl | hxr'
            · exact hcmp
            · exact le_trans (hrb.1 x hxr') hcmp
        · have hab : csize a ≤ csize b := le_of_not_le hcmp
          have hrec := ih (a :: l') r' hl hrb.2 (by simp at hlen ⊢; omega)
          simp only [mergeRuns, if_neg hcmp]
          refine List.pairwise_cons.mpr ⟨?_, hrec⟩
          intro x hx
          have hx' : x ∈ (a :: l') ++ r' := (mergeRuns_perm f (a :: l') r').mem_iff.mp hx
          rcases List.mem_append.mp hx' with hxl | hxr
          · rcases List.mem_cons.mp hxl with rfl | hxl'
            · exact hab
            · exact le_trans (hla.1 x hxl') hab
          · exact hrb.1 x hxr

/-- Stability of the merge: for every size value, merging a sorted left
half keeps the filtered subsequences in order, left half first. -/
theorem mergeRuns_filter (f : Nat) :
    ∀ (l r : List Candidate), SortedDesc l → ∀ s : Nat,
      (mergeRuns f l r).filter (fun c => csize c == s)
        = l.filter (fun c => csize c == s) ++ r.filter (fun c => csize c == s) := by
  induction f with
  | zero =>
    intro l r _ s
    cases l <;> cases r <;>
      first
        | (simp [mergeRuns]; done)
        | (simp only [mergeRuns]; exact List.filter_append _ _)
  | succ f ih =>
    intro l r hl s
    cases l with
    | nil => simp [mergeRuns]
    | cons a l' =>
      cases r with
      | nil => simp [mergeRuns]
      | cons b r' =>
        have hla := List.pairwise_cons.mp hl
        by_cases hcmp : csize b ≤ csize a
        · have hrec := ih l' (b :: r') hla.2 s
          simp only [mergeRuns, if_pos hcmp]
          cases hsa : (csize a == s) <;>
            simp [List.filter_cons, hsa, hrec]
        · have hrec := ih (a :: l') r' hl s
          simp only [mergeRuns, if_neg hcmp]
          cases hsb : (csize b == s)
          · simp only [List.filter_cons, hsb, hrec]
            simp [List.filter_cons, hsb]
          · have hbs : csize b = s := by simpa using hsb
            have hempty : (a :: l').filter (fun c => csize c == s) = [] := by
              refine List.filter_eq_nil_iff.mpr ?_
              intro x hx
              have hxa : csize x ≤ csize a := by
                rcases List.mem_cons.mp hx with rfl | hx'
                · exact le_refl _
                · exact hla.1 x hx'
              have hlt : csize x < s := by omega
              simp only [beq_iff_eq]
              omega
            simp [List.filter_cons, hsb, hrec, hempty]

/-- The fuelled sort always permutes its input. -/
theorem mergeSortF_perm (f : Nat) : ∀ v, (mergeSortF f v).Perm v := by
  induction f with
  | zero => intro v; simp [mergeSortF]
  | succ f ih =>
    intro v
    by_cases h1 : v.length ≤ 1
    · simp [mergeSortF, h1]
    · simp only [mergeSortF, if_neg h1]
      refine (mergeRuns_perm v.length _ _).trans ?_
      refine (((ih _).append (ih _))).trans ?_
      rw [List.take_append_drop]

/-- With fuel at least the length, the sort is sorted descending. -/
theorem mergeSortF_sorted (f : Nat) : ∀ v, v.length ≤ f → SortedDesc (mergeSortF f v) := by
  induction f with
  | zero =>
    intro v hv
    have hv0 : v = [] := List.length_eq_zero.mp (by omega)
    subst hv0
    simp [mergeSortF, SortedDesc]
  | succ f ih =>
    intro v hv
    by_cases h1 : v.length ≤ 1
    · rcases v with - | ⟨x, - | ⟨y, ys⟩⟩
      · simp [mergeSortF, SortedDesc]
      · simp [mergeSortF, SortedDesc]
      · simp at h1
    · simp only [mergeSortF, if_neg h1]
      refine mergeRuns_sorted _ _ _ ?_ ?_ ?_
      · exact ih _ (by simp [List.length_take]; omega)
      · exact ih _ (by simp [List.length_drop]; omega)
      · rw [(mergeSortF_perm f _).length_eq, (mergeSortF_perm f _).length_eq]
        simp only [List.length_take, List.length_drop]
        omega

/-- With fuel at least the length, the sort is stable: for every size
value the filtered subsequence is unchanged. -/
theorem mergeSortF_filter (f : Nat) : ∀ v, v.length ≤ f → ∀ s : Nat,
    (mergeSortF f v).filter (fun c => csize c == s) = v.filter (fun c => csize c == s) := by
  induction f with
  | zero => intro v _ s; simp [mergeSortF]
  | succ f ih =>
    intro v hv s
    by_cases h1 : v.length ≤ 1
    · simp [mergeSortF, h1]
    · simp only [mergeSortF, if_neg h1]
      rw [mergeRuns_filter _ _ _ (mergeSortF_sorted f _ (by simp [List.length_take]; omega)),
        ih _ (by simp [List.length_take]; omega), ih _ (by simp [List.length_drop]; omega),
        ← List.filter_append, List.take_append_drop]

/-- `merge_sort` over the full index range permutes its input. -/
theorem mergeSortC_perm (v : List Candidate) : (mergeSortC v).Perm v :=
  mergeSortF_perm v.length v

/-- `merge_sort` preserves the length. -/
theorem mergeSortC_length (v : List Candidate) : (mergeSortC v).length = v.length :=
  (mergeSortC_perm v).length_eq

/-- `merge_sort` sorts by descending pending-frame size. -/
theorem mergeSortC_sorted (v : List Candidate) : SortedDesc (mergeSortC v) :=
  mergeSortF_sorted v.length v (le_refl _)

/-- `merge_sort` is stable. -/
theorem mergeSortC_filter (v : List Candidate) (s : Nat) :
    (mergeSortC v).filter (fun c => csize c == s) = v.filter (fun c => csize c == s) :=
  mergeSortF_filter v.length v (le_refl _) s

/-- C7: `merge_sort` over the full index range sorts any candidate list
into descending order of pending-frame size, is stable (for every size
value the subsequence of candidates of that size is unchanged, so
equal-size candidates keep their relative order), is deterministic, and
permutes its input; consequently each per-class sort in
`GetNumberAndTypeOfRus` yields a permutation of that class in descending
size order. -/
theorem claim_C7 :
    (∀ v : List Candidate, (mergeSortC v).Perm v) ∧
    (∀ v : List Candidate, SortedDesc (mergeSortC v)) ∧
    (∀ (v : List Candidate) (s : Nat),
      (mergeSortC v).filter (fun c => csize c == s) = v.filter (fun c => csize c == s)) ∧
    (∀ v w : List Candidate, v = w → mergeSortC v = mergeSortC w) ∧
    (∀ (b1 o1 h1 : List Nat) (d : List Candidate),
      (mergeSortC (classOnoff b1 o1 d)).Perm (classOnoff b1 o1 d) ∧
      SortedDesc (mergeSortC (classOnoff b1 o1 d)) ∧
      (mergeSortC (classBulk b1 d)).Perm (classBulk b1 d) ∧
      SortedDesc (mergeSortC (classBulk b1 d)) ∧
      (mergeSortC (classHttp b1 o1 h1 d)).Perm (classHttp b1 o1 h1 d) ∧
      SortedDesc (mergeSortC (classHttp b1 o1 h1 d))) :=
  ⟨mergeSortC_perm, mergeSortC_sorted, mergeSortC_filter,
    fun _ _ h => by rw [h],
    fun b1 o1 h1 d =>
      ⟨mergeSortC_perm _, mergeSortC_sorted _, mergeSortC_perm _,
        mergeSortC_sorted _, mergeSortC_perm _, mergeSortC_sorted _⟩⟩

/-- Witness for C7: the determinism conjunct applied at a concrete list,
together with the sortedness of its output. -/
theorem claim_C7_witness :
    mergeSortC [mkC 1 5, mkC 2 9, mkC 3 7] = mergeSortC [mkC 1 5, mkC 2 9, mkC 3 7] ∧
      mergeSortC [mkC 1 5, mkC 2 9, mkC 3 7] = [mkC 2 9, mkC 3 7, mkC 1 5] :=
  ⟨claim_C7.2.2.2.1 [mkC 1 5, mkC 2 9, mkC 3 7] [mkC 1 5, mkC 2 9, mkC 3 7] rfl,
    by decide⟩

/-- A table entry found by `lookupGroups` is a member of the table. -/
theorem mem_of_lookup {bw : Nat} {t : RuType} {k : Nat}
    (h : lookupGroups bw t = some k) : ((bw, t), k) ∈ heRuGroups := by
  unfold lookupGroups at h
  cases hf : heRuGroups.find? (fun e => e.1.1 == bw && e.1.2 == t) with
  | none => rw [hf] at h; simp at h
  | some e =>
    rw [hf] at h
    simp only [Option.map_some', Option.some.injEq] at h
    have hmem := List.mem_of_find?_eq_some hf
    have hpred := List.find?_some hf
    simp only [Bool.and_eq_true, beq_iff_eq] at hpred
    obtain ⟨⟨a, b⟩, c⟩ := e
    simp only at hpred h
    rw [← hpred.1, ← hpred.2, ← h]
    exact hmem

/-- Conversely, every member of the table is what `lookupGroups` finds for
its key (the table's keys are pairwise distinct). -/
theorem lookup_of_mem {bw : Nat} {t : RuType} {k : Nat}
    (h : ((bw, t), k) ∈ heRuGroups) : lookupGroups bw t = some k := by
  simp only [heRuGroups, List.mem_cons, List.not_mem_nil, or_false] at h
  rcases h with h|h|h|h|h|h|h|h|h|h|h|h|h|h|h <;>
    (simp only [Prod.mk.injEq] at h; obtain ⟨⟨rfl, rfl⟩, rfl⟩ := h; rfl)

/-- Every slot count in the table is positive and within the slot
capacity of its bandwidth. -/
theorem mem_le_cap {bw : Nat} {t : RuType} {k : Nat}
    (h : ((bw, t), k) ∈ heRuGroups) : 1 ≤ k ∧ k ≤ ruSlotCapacity bw := by
  simp only [heRuGroups, List.mem_cons, List.not_mem_nil, or_false] at h
  rcases h with h|h|h|h|h|h|h|h|h|h|h|h|h|h|h <;>
    (simp only [Prod.mk.injEq] at h; obtain ⟨⟨rfl, rfl⟩, rfl⟩ := h; exact ⟨by decide, by decide⟩)

/-- The table holds no definitions for 160 MHz. -/
theorem lookup160_none (t : RuType) : lookupGroups 160 t = none := by
  cases t <;> rfl

/-- The 26-tone slot count of a bandwidth with table entries is exactly
its slot capacity. -/
theorem lookup_ru26_cap {bw k : Nat} (h : lookupGroups bw RU26 = some k) :
    k = ruSlotCapacity bw := by
  have hm := mem_of_lookup h
  simp only [heRuGroups, List.mem_cons, List.not_mem_nil, or_false] at hm
  rcases hm with h'|h'|h'|h'|h'|h'|h'|h'|h'|h'|h'|h'|h'|h'|h' <;>
    simp only [Prod.mk.injEq] at h' <;>
    first
      | (obtain ⟨⟨rfl, -⟩, rfl⟩ := h'; rfl)
      | (exact absurd h'.1.2 (by decide))

/-- What a successful scan of the RU table returns: either a table entry
of the requested bandwidth whose slot count fits `nStations`, or — only
at 160 MHz — a doubled 80 MHz entry. -/
theorem findRu_some {bw n : Nat} :
    ∀ (l : List ((Nat × RuType) × Nat)) (t : RuType) (k : Nat),
      findRu bw n l = some (t, k) →
      (((bw, t), k) ∈ l ∧ k ≤ n) ∨
        (bw = 160 ∧ ∃ k0, ((80, t), k0) ∈ l ∧ k = 2 * k0 ∧ k ≤ n) := by
  intro l
  induction l with
  | nil => intro t k h; simp [findRu] at h
  | cons e rest ih =>
    intro t k h
    obtain ⟨⟨b, t'⟩, k'⟩ := e
    rw [findRu] at h
    split at h
    · simp only [Option.some.injEq, Prod.mk.injEq] at h
      obtain ⟨rfl, rfl⟩ := h
      rename_i hc
      exact Or.inl ⟨by rw [← hc.1]; exact List.mem_cons_self _ _, hc.2⟩
    · split at h
      · simp only [Option.some.injEq, Prod.mk.injEq] at h
        obtain ⟨rfl, rfl⟩ := h
        rename_i hc
        exact Or.inr ⟨hc.1, k', by rw [← hc.2.1]; exact List.mem_cons_self _ _, rfl, hc.2.2⟩
      · rcases ih t k h with ⟨hm, hk⟩ | ⟨hbw, k0, hm, hk⟩
        · exact Or.inl ⟨List.mem_cons_of_mem _ hm, hk⟩
        · exact Or.inr ⟨hbw, k0, List.mem_cons_of_mem _ hm, hk⟩

/-- In the degenerate branch (class 2 empty or at most one candidate in
all), a successful table scan followed by a successful slot lookup gives
one allocation entry per slot, indices from 1, over the
classes-in-order reordering. -/
theorem gntr_degen_eq (b1 o1 h1 : List Nat) (bw n : Nat) (d : List Candidate)
    (hdeg : (classBulk b1 d).length = 0 ∨
      (classOnoff b1 o1 d).length + (classBulk b1 d).length +
        (classHttp b1 o1 h1 d).length ≤ 1)
    {t : RuType} {k sz : Nat}
    (hfind : findRu bw n heRuGroups = some (t, k))
    (hlook : lookupGroups bw t = some sz) :
    getNumberAndTypeOfRus b1 o1 h1 bw n d =
      some ((List.range sz).map (fun i => (t, i + 1)),
        mergeSortC (classOnoff b1 o1 d) ++ mergeSortC (classBulk b1 d) ++
          mergeSortC (classHttp b1 o1 h1 d)) := by
  simp only [getNumberAndTypeOfRus, hfind, hlook]
  rw [if_pos hdeg]

/-- C4 (amended): in the degenerate case on a bandwidth with table
entries (20, 40 or 80 MHz), `GetNumberAndTypeOfRus` selects the first RU
definition of that bandwidth, in enumeration order, whose slot count is
at most the requested station count, and emits one allocation entry per
slot of that type with indices numbered from 1 over the sorted
classes-in-order candidate reordering; with one requested station the
choice has exactly one slot.  (At 160 MHz the original claim fails: the
fallback selects the whole-channel RU but the per-slot emission looks the
160 MHz key up in the table, which has no 160 MHz entries, so the call
fails instead of emitting one entry — see the counterexample.) -/
theorem claim_C4_amended (b1 o1 h1 : List Nat) (bw n : Nat) (d : List Candidate)
    (hdeg : (classBulk b1 d).length = 0 ∨
      (classOnoff b1 o1 d).length + (classBulk b1 d).length +
        (classHttp b1 o1 h1 d).length ≤ 1)
    (hbw : bw = 20 ∨ bw = 40 ∨ bw = 80) (hn : 1 ≤ n) :
    ∃ (t : RuType) (k : Nat),
      findRu bw n heRuGroups = some (t, k) ∧ lookupGroups bw t = some k ∧
      1 ≤ k ∧ k ≤ n ∧
      getNumberAndTypeOfRus b1 o1 h1 bw n d =
        some ((List.range k).map (fun i => (t, i + 1)),
          mergeSortC (classOnoff b1 o1 d) ++ mergeSortC (classBulk b1 d) ++
            mergeSortC (classHttp b1 o1 h1 d)) ∧
      (n = 1 → k = 1) := by
  rcases hbw with rfl | rfl | rfl
  · by_cases h9 : 9 ≤ n
    · have hf : findRu 20 n heRuGroups = some (RU26, 9) := by
        simp [findRu, heRuGroups, h9]
      exact ⟨RU26, 9, hf, rfl, by omega, h9,
        gntr_degen_eq b1 o1 h1 20 n d hdeg hf rfl, by omega⟩
    · by_cases h4 : 4 ≤ n
      · have hf : findRu 20 n heRuGroups = some (RU52, 4) := by
          simp [findRu, heRuGroups, h9, h4]
        exact ⟨RU52, 4, hf, rfl, by omega, h4,
          gntr_degen_eq b1 o1 h1 20 n d hdeg hf rfl, by omega⟩
      · by_cases h2 : 2 ≤ n
        · have hf : findRu 20 n heRuGroups = some (RU106, 2) := by
            simp [findRu, heRuGroups, h9, h4, h2]
          exact ⟨RU106, 2, hf, rfl, by omega, h2,
            gntr_degen_eq b1 o1 h1 20 n d hdeg hf rfl, by omega⟩
        · have hf : findRu 20 n heRuGroups = some (RU242, 1) := by
            simp [findRu, heRuGroups, h9, h4, h2, hn]
          exact ⟨RU242, 1, hf, rfl, by omega, hn,
            gntr_degen_eq b1 o1 h1 20 n d hdeg hf rfl, by omega⟩
  · by_cases h18 : 18 ≤ n
    · have hf : findRu 40 n heRuGroups = some (RU26, 18) := by
        simp [findRu, heRuGroups, h18]
      exact ⟨RU26, 18, hf, rfl, by omega, h18,
        gntr_degen_eq b1 o1 h1 40 n d hdeg hf rfl, by omega⟩
    · by_cases h8 : 8 ≤ n
      · have hf : findRu 40 n heRuGroups = some (RU52, 8) := by
          simp [findRu, heRuGroups, h18, h8]
        exact ⟨RU52, 8, hf, rfl, by omega, h8,
          gntr_degen_eq b1 o1 h1 40 n d hdeg hf rfl, by omega⟩
      · by_cases h4 : 4 ≤ n
        · have hf : findRu 40 n heRuGroups = some (RU106, 4) := by
            simp [findRu, heRuGroups, h18, h8, h4]
          exact ⟨RU106, 4, hf, rfl, by omega, h4,
            gntr_degen_eq b1 o1 h1 40 n d hdeg hf rfl, by omega⟩
        · by_cases h2 : 2 ≤ n
          · have hf : findRu 40 n heRuGroups = some (RU242, 2) := by
              simp [findRu, heRuGroups, h18, h8, h4, h2]
            exact ⟨RU242, 2, hf, rfl, by omega, h2,
              gntr_degen_eq b1 o1 h1 40 n d hdeg hf rfl, by omega⟩
          · have hf : findRu 40 n heRuGroups = some (RU484, 1) := by
              simp [findRu, heRuGroups, h18, h8, h4, h2, hn]
            exact ⟨RU484, 1, hf, rfl, by omega, hn,
              gntr_degen_eq b1 o1 h1 40 n d hdeg hf rfl, by omega⟩
  · by_cases h37 : 37 ≤ n
    · have hf : findRu 80 n heRuGroups = some (RU26, 37) := by
        simp [findRu, heRuGroups, h37]
      exact ⟨RU26, 37, hf, rfl, by omega, h37,
        gntr_degen_eq b1 o1 h1 80 n d hdeg hf rfl, by omega⟩
    · by_cases h16 : 16 ≤ n
      · have hf : findRu 80 n heRuGroups = some (RU52, 16) := by
          simp [findRu, heRuGroups, h37, h16]
        exact ⟨RU52, 16, hf, rfl, by omega, h16,
          gntr_degen_eq b1 o1 h1 80 n d hdeg hf rfl, by omega⟩
      · by_cases h8 : 8 ≤ n
        · have hf : findRu 80 n heRuGroups = some (RU106, 8) := by
            simp [findRu, heRuGroups, h37, h16, h8]
          exact ⟨RU106, 8, hf, rfl, by omega, h8,
            gntr_degen_eq b1 o1 h1 80 n d hdeg hf rfl, by omega⟩
        · by_cases h4 : 4 ≤ n
          · have hf : findRu 80 n heRuGroups = some (RU242, 4) := by
              simp [findRu, heRuGroups, h37, h16, h8, h4]
            exact ⟨RU242, 4, hf, rfl, by omega, h4,
              gntr_degen_eq b1 o1 h1 80 n d hdeg hf rfl, by omega⟩
          · by_cases h2 : 2 ≤ n
            · have hf : findRu 80 n heRuGroups = some (RU484, 2) := by
                simp [findRu, heRuGroups, h37, h16, h8, h4, h2]
              exact ⟨RU484, 2, hf, rfl, by omega, h2,
                gntr_degen_eq b1 o1 h1 80 n d hdeg hf rfl, by omega⟩
            · have hf : findRu 80 n heRuGroups = some (RU996, 1) := by
                simp [findRu, heRuGroups, h37, h16, h8, h4, h2, hn]
              exact ⟨RU996, 1, hf, rfl, by omega, hn,
                gntr_degen_eq b1 o1 h1 80 n d hdeg hf rfl, by omega⟩

/-- C4 counterexample: a single candidate (degenerate case, one requested
station) at 160 MHz makes `GetNumberAndTypeOfRus` fail — the whole-channel
fallback is selected but the emission loop's table lookup for the 160 MHz
key throws — instead of yielding exactly one RU allocation entry. -/
theorem claim_C4_counterexample :
    ((classOnoff [] [] [mkC 1 100]).length + (classBulk [] [mkC 1 100]).length +
        (classHttp [] [] [] [mkC 1 100]).length ≤ 1) ∧
      findRu 160 1 heRuGroups = none ∧
      getNumberAndTypeOfRus [] [] [] 160 1 [mkC 1 100] = none := by
  exact ⟨by decide, by decide, by decide⟩

/-- Witness for C4 (amended): a single candidate at 20 MHz with one
requested station yields exactly the one whole-20-MHz entry. -/
theorem claim_C4_witness :
    getNumberAndTypeOfRus [] [1] [] 20 1 [mkC 1 100] =
      some ([(RU242, 1)], [mkC 1 100]) := by
  obtain ⟨t, k, hfind, -, -, -, hmain, -⟩ :=
    claim_C4_amended [] [1] [] 20 1 [mkC 1 100] (Or.inl (by decide)) (Or.inl rfl) (by decide)
  have hfk : findRu 20 1 heRuGroups = some (RU242, 1) := by decide
  rw [hfind] at hfk
  simp only [Option.some.injEq, Prod.mk.injEq] at hfk
  obtain ⟨rfl, rfl⟩ := hfk
  rw [hmain]
  decide

/-- The overflow branch (class 1 larger than 7, class 2 at least as
large): the rewritten batch is class 1, then class 2 truncated to
class 1's count, then class 3, and the emission is one entry per slot of
the table's first RU type (the 26-tone type) at the current bandwidth. -/
theorem gntr_overflow_eq (b1 o1 h1 : List Nat) (bw n : Nat) (d : List Candidate)
    (hnd : ¬((classBulk b1 d).length = 0 ∨
      (classOnoff b1 o1 d).length + (classBulk b1 d).length +
        (classHttp b1 o1 h1 d).length ≤ 1))
    (hover : 7 < (classOnoff b1 o1 d).length)
    (htr : (classOnoff b1 o1 d).length ≤ (classBulk b1 d).length)
    {sz : Nat} (hlook : lookupGroups bw RU26 = some sz) :
    getNumberAndTypeOfRus b1 o1 h1 bw n d =
      some ((List.range sz).map (fun i => (RU26, i + 1)),
        mergeSortC (classOnoff b1 o1 d) ++
          (mergeSortC (classBulk b1 d)).take (classOnoff b1 o1 d).length ++
          mergeSortC (classHttp b1 o1 h1 d)) := by
  have htake : takeExact (mergeSortC (classBulk b1 d)) (classOnoff b1 o1 d).length =
      some ((mergeSortC (classBulk b1 d)).take (classOnoff b1 o1 d).length) := by
    unfold takeExact
    rw [if_pos (by rw [mergeSortC_length]; exact htr)]
  simp only [getNumberAndTypeOfRus]
  rw [if_neg hnd, if_pos hover]
  simp only [htake, heRuGroups, hlook]

/-- C5 counterexample: with class 1 of size 8 and class 2 of size 1, the
overflow branch is taken but the batch rewrite reads 8 elements off the
one-element class-2 iterator, dereferencing past its end — the call
fails instead of emitting one entry per slot. -/
theorem claim_C5_counterexample :
    7 < (classOnoff bOne oEight dNine).length ∧
      (classBulk bOne dNine).length ≠ 0 ∧
      getNumberAndTypeOfRus bOne oEight [] 20 9 dNine = none := by
  exact ⟨by decide, by decide, by decide⟩

/-- C5 (amended): whenever class 1 has more than 7 members (and the
degenerate case does not apply), the overflow branch is taken regardless
of class 3's contents; provided additionally that class 2 has at least as
many members as class 1 (otherwise the batch rewrite dereferences past
the end of class 2) and the bandwidth has table entries (20, 40 or
80 MHz), it emits one allocation entry per slot of the table's first RU
definition — the 26-tone type — at the current bandwidth, over the
reordered candidate sequence. -/
theorem claim_C5_amended (b1 o1 h1 : List Nat) (bw n : Nat) (d : List Candidate)
    (hnd : ¬((classBulk b1 d).length = 0 ∨
      (classOnoff b1 o1 d).length + (classBulk b1 d).length +
        (classHttp b1 o1 h1 d).length ≤ 1))
    (hover : 7 < (classOnoff b1 o1 d).length)
    (htr : (classOnoff b1 o1 d).length ≤ (classBulk b1 d).length)
    (hbw : bw = 20 ∨ bw = 40 ∨ bw = 80) :
    getNumberAndTypeOfRus b1 o1 h1 bw n d =
      some ((List.range (ruSlotCapacity bw)).map (fun i => (RU26, i + 1)),
        mergeSortC (classOnoff b1 o1 d) ++
          (mergeSortC (classBulk b1 d)).take (classOnoff b1 o1 d).length ++
          mergeSortC (classHttp b1 o1 h1 d)) := by
  rcases hbw with rfl | rfl | rfl <;>
    exact gntr_overflow_eq b1 o1 h1 _ n d hnd hover htr (by decide)

/-- Witness for C5 (amended): sixteen candidates, eight per class, at
20 MHz take the overflow branch and emit the nine 26-tone entries. -/
theorem claim_C5_witness :
    getNumberAndTypeOfRus bEight oEight [] 20 16 dSixteen =
      some ((List.range (ruSlotCapacity 20)).map (fun i => (RU26, i + 1)),
        mergeSortC (classOnoff bEight oEight dSixteen) ++
          (mergeSortC (classBulk bEight dSixteen)).take
            (classOnoff bEight oEight dSixteen).length ++
          mergeSortC (classHttp bEight oEight [] dSixteen)) :=
  claim_C5_amended bEight oEight [] 20 16 dSixteen (by decide) (by decide)
    (by decide) (Or.inl rfl)

/-- The `u`-bounded loop emits exactly one entry per consumed member. -/
theorem uLoop_len : ∀ (l : List Candidate) (u idx : Nat),
    (uLoop l u idx).entries.length = (uLoop l u idx).data.length := by
  intro l
  induction l with
  | nil => intro u idx; cases u <;> simp [uLoop]
  | cons x xs ih =>
    intro u idx
    cases u with
    | zero => simp [uLoop]
    | succ u' => simp [uLoop, ih]

/-- The `u`-bounded loop advances its index once per decrement of `u`. -/
theorem uLoop_idx_cnt : ∀ (l : List Candidate) (u idx : Nat),
    (uLoop l u idx).idx + (uLoop l u idx).cnt = idx + u := by
  intro l
  induction l with
  | nil => intro u idx; cases u <;> simp [uLoop]
  | cons x xs ih =>
    intro u idx
    cases u with
    | zero => simp [uLoop]
    | succ u' =>
      have := ih u' (idx + 1)
      simp only [uLoop]
      omega

/-- The `u`-bounded loop keeps its indices below `idx + u`, so it never
emits the fix-up index 5 when `idx + u ≤ 5`. -/
theorem uLoop_count5 : ∀ (l : List Candidate) (u idx : Nat), idx + u ≤ 5 →
    (uLoop l u idx).entries.count (RU26, 5) = 0 := by
  intro l
  induction l with
  | nil => intro u idx _; cases u <;> simp [uLoop]
  | cons x xs ih =>
    intro u idx hle
    cases u with
    | zero => simp [uLoop]
    | succ u' =>
      have hne : ((RU26, idx) : RuType × Nat) ≠ (RU26, 5) := by
        simp only [ne_eq, Prod.mk.injEq, not_and]
        intro _
        omega
      simp [uLoop, List.count_cons, hne, ih u' (idx + 1) (by omega)]

/-- The fixed-count 52-tone emission loop: one entry per consumed member,
all of the 52-tone type. -/
theorem emitCount_spec (t : RuType) : ∀ (cnt idx : Nat)
    (l dta rest : List Candidate) (ent : List (RuType × Nat)),
    emitCount t idx cnt l = some (dta, ent, rest) →
    ent.length = dta.length ∧ ∀ x ∈ ent, x.1 = t := by
  intro cnt
  induction cnt with
  | zero =>
    intro idx l dta rest ent h
    simp only [emitCount, Option.some.injEq, Prod.mk.injEq] at h
    obtain ⟨rfl, rfl, rfl⟩ := h
    simp
  | succ c ih =>
    intro idx l dta rest ent h
    cases l with
    | nil => simp [emitCount] at h
    | cons x xs =>
      simp only [emitCount, Option.map_eq_some'] at h
      obtain ⟨⟨d1, e1, r1⟩, hrec, heq⟩ := h
      simp only [Prod.mk.injEq] at heq
      obtain ⟨h1, h2, h3⟩ := heq
      subst h1; subst h2; subst h3
      obtain ⟨hl, ht⟩ := ih (idx + 1) xs d1 r1 e1 hrec
      refine ⟨by simp [hl], ?_⟩
      intro y hy
      rcases List.mem_cons.mp hy with rfl | hy'
      · rfl
      · exact ht y hy'

/-- The bounded 26-tone emission loop: one entry per consumed member, all
of the 26-tone type at indices from `idx` on, and its final index does
not go below `idx`. -/
theorem emit26B_spec : ∀ (cnt idx : Nat) (l : List Candidate),
    (emit26B idx cnt l).entries.length = (emit26B idx cnt l).data.length ∧
    idx ≤ (emit26B idx cnt l).idx ∧
    ∀ x ∈ (emit26B idx cnt l).entries, x.1 = RU26 ∧ idx ≤ x.2 := by
  intro cnt
  induction cnt with
  | zero => intro idx l; simp [emit26B]
  | succ c ih =>
    intro idx l
    cases l with
    | nil => simp [emit26B]
    | cons x xs =>
      obtain ⟨hl, hidx, hmem⟩ := ih (idx + 1) xs
      refine ⟨by simp [emit26B, hl], by simp only [emit26B]; omega, ?_⟩
      intro y hy
      simp only [emit26B, List.mem_cons] at hy
      rcases hy with rfl | hy'
      · exact ⟨rfl, le_refl _⟩
      · obtain ⟨h1, h2⟩ := hmem y hy'
        exact ⟨h1, by omega⟩

/-- The bounded 26-tone emission loop never emits index 5 when started at
6 or above. -/
theorem emit26B_count5 (cnt idx : Nat) (l : List Candidate) (h6 : 6 ≤ idx) :
    (emit26B idx cnt l).entries.count (RU26, 5) = 0 := by
  rw [List.count_eq_zero]
  intro hmem
  obtain ⟨-, h5⟩ := (emit26B_spec cnt idx l).2.2 (RU26, 5) hmem
  omega

/-- The odd fix-up step consumes exactly one member per emitted entry. -/
theorem oddStep_len (a26 : Nat) (on1 ht1 : List Candidate) (d2 : List Candidate)
    (e2 : List (RuType × Nat)) (on2 ht2 : List Candidate)
    (h : oddFix a26 on1 ht1 = some (d2, e2, on2, ht2)) :
    e2.length = d2.length := by
  unfold oddFix at h
  split at h
  · split at h <;>
      first
        | (simp only [Option.some.injEq, Prod.mk.injEq] at h
           obtain ⟨h1, h2, -, -⟩ := h
           simp [← h1, ← h2])
        | exact absurd h (by simp)
  · simp only [Option.some.injEq, Prod.mk.injEq] at h
    obtain ⟨h1, h2, -, -⟩ := h
    simp [← h1, ← h2]

/-- The tail of the mixed branch emits at most one entry per member of
the rewritten batch. -/
theorem mixedTail_len (a26 n52r : Nat) (d1 : List Candidate)
    (e1 : List (RuType × Nat)) (on1 ht1 brest : List Candidate)
    (rus : List (RuType × Nat)) (d' : List Candidate)
    (hlen1 : e1.length = d1.length)
    (h : mixedTail a26 n52r d1 e1 on1 ht1 brest = some (rus, d')) :
    rus.length ≤ d'.length := by
  simp only [mixedTail] at h
  split at h
  · exact absurd h (by simp)
  · rename_i d2 e2 on2 ht2 heq
    have hlen2 := oddStep_len a26 on1 ht1 d2 e2 on2 ht2 heq
    split at h
    · exact absurd h (by simp)
    · rename_i d3 e3 brem heq3
      have hlen3 := (emitCount_spec RU52 n52r 3 brest d3 brem e3 heq3).1
      simp only [Option.some.injEq, Prod.mk.injEq] at h
      obtain ⟨h1, h2⟩ := h
      subst h1
      subst h2
      have h4 : ∀ (c i : Nat) (l : List Candidate),
          (emit26B i c l).entries.length = (emit26B i c l).data.length :=
        fun c i l => (emit26B_spec c i l).1
      simp only [List.length_append, h4, hlen1, hlen2, hlen3]
      omega

/-- The mixed branch emits at most one entry per member of the rewritten
batch. -/
theorem mixedBranch_len (onoff bulksend http : List Candidate)
    (rus : List (RuType × Nat)) (d' : List Candidate)
    (h : mixedBranch onoff bulksend http = some (rus, d')) :
    rus.length ≤ d'.length := by
  cases bulksend with
  | nil => simp [mixedBranch] at h
  | cons b0 brest =>
    simp only [mixedBranch] at h
    split at h
    · exact mixedTail_len _ _ _ _ _ _ _ _ _ rfl h
    · refine mixedTail_len _ _ _ _ _ _ _ _ _ ?_ h
      simp [uLoop_len]

/-- C1 counterexample: sixteen candidates (eight class 1, eight class 2)
at 40 MHz with `nStations = 16` produce an allocation of 18 entries —
more than `nStations` (which equals the candidate count and bounds the
configured maximum that admits this batch). -/
theorem claim_C1_counterexample :
    dSixteen.length = 16 ∧
      (getNumberAndTypeOfRus bEight oEight [] 40 16 dSixteen).map
        (fun r => r.1.length) = some 18 ∧
      ruSlotCapacity 40 = 18 ∧ ¬(18 ≤ 16) := by
  exact ⟨by decide, by decide, by decide, by decide⟩

/-- C1 (amended): the claimed bound holds branch-wise, not globally.  In
the degenerate branch the allocation has at most `nStations` entries and
at most the bandwidth's slot capacity; in the overflow branch it has
exactly the bandwidth's 26-tone slot count, regardless of `nStations`;
in the mixed branch it has at most one entry per member of the rewritten
candidate sequence (but can exceed the 20 MHz slot capacity). -/
theorem claim_C1_amended (b1 o1 h1 : List Nat) (bw n : Nat) (d : List Candidate)
    (rus : List (RuType × Nat)) (d' : List Candidate)
    (h : getNumberAndTypeOfRus b1 o1 h1 bw n d = some (rus, d')) :
    (((classBulk b1 d).length = 0 ∨
        (classOnoff b1 o1 d).length + (classBulk b1 d).length +
          (classHttp b1 o1 h1 d).length ≤ 1) →
      rus.length ≤ n ∧ rus.length ≤ ruSlotCapacity bw) ∧
    (¬((classBulk b1 d).length = 0 ∨
        (classOnoff b1 o1 d).length + (classBulk b1 d).length +
          (classHttp b1 o1 h1 d).length ≤ 1) →
      7 < (classOnoff b1 o1 d).length → rus.length = ruSlotCapacity bw) ∧
    (¬((classBulk b1 d).length = 0 ∨
        (classOnoff b1 o1 d).length + (classBulk b1 d).length +
          (classHttp b1 o1 h1 d).length ≤ 1) →
      ¬(7 < (classOnoff b1 o1 d).length) → rus.length ≤ d'.length) := by
  refine ⟨?_, ?_, ?_⟩
  · intro hdeg
    simp only [getNumberAndTypeOfRus] at h
    rw [if_pos hdeg] at h
    split at h
    · rename_i t k hfind
      split at h
      · exact absurd h (by simp)
      · rename_i sz hlook
        simp only [Option.some.injEq, Prod.mk.injEq] at h
        obtain ⟨h1, -⟩ := h
        subst h1
        rcases findRu_some heRuGroups t k hfind with ⟨hm, hkn⟩ | ⟨hbw160, k0, hm80, -, -⟩
        · have hlk := lookup_of_mem hm
          rw [hlook] at hlk
          simp only [Option.some.injEq] at hlk
          subst hlk
          obtain ⟨-, hcap⟩ := mem_le_cap hm
          simp only [List.length_map, List.length_range]
          exact ⟨hkn, hcap⟩
        · subst hbw160
          rw [lookup160_none t] at hlook
          exact absurd hlook (by simp)
    · split at h
      · rename_i hcond
        split at h
        · exact absurd h (by simp)
        · rename_i sz hlook
          rw [hcond.1] at hlook
          rw [lookup160_none RU2x996] at hlook
          exact absurd hlook (by simp)
      · exact absurd h (by simp)
  · intro hdeg hover
    simp only [getNumberAndTypeOfRus] at h
    rw [if_neg hdeg, if_pos hover] at h
    split at h
    · exact absurd h (by simp)
    · rename_i bpart heqt
      simp only [heRuGroups] at h
      split at h
      · exact absurd h (by simp)
      · rename_i sz hlook
        simp only [Option.some.injEq, Prod.mk.injEq] at h
        obtain ⟨h1, -⟩ := h
        subst h1
        simp only [List.length_map, List.length_range]
        exact lookup_ru26_cap hlook
  · intro hdeg hover
    simp only [getNumberAndTypeOfRus] at h
    rw [if_neg hdeg, if_neg hover] at h
    exact mixedBranch_len _ _ _ _ _ h

/-- Witness for C1 (amended): the degenerate 20 MHz allocation for four
requested stations has four entries, within both bounds. -/
theorem claim_C1_witness :
    rusFour.length ≤ 4 ∧ rusFour.length ≤ ruSlotCapacity 20 :=
  (claim_C1_amended [] [] [] 20 4 [] rusFour [] (by decide)).1 (Or.inl (by decide))

/-- C6: at 160 MHz the RU packer itself succeeds (mixed branch), and the
same two-candidate decision succeeds at 80 MHz with one assignment pass;
but at 160 MHz the assignment nest advances the station-map and RU
iterators into the second 80 MHz pass without resetting them, so both
run past the end and the `NS_ASSERT (mapIt != end)` fails instead of
reusing the same RU types on the second half. -/
theorem claim_C6 :
    (getNumberAndTypeOfRus [1] [2] [] 160 2 dPair).isSome = true ∧
      computeDlOfdmaInfo [1] [2] [] 80 dPair =
        some [(true, RU106, 1, 1), (true, RU26, 5, 2)] ∧
      computeDlOfdmaInfo [1] [2] [] 160 dPair = none := by
  exact ⟨by decide, by decide, by decide⟩

/-- The 52-tone reservation loop consumes exactly 52 tones per unit. -/
theorem loop52_budget : ∀ (s3 a : Nat),
    52 * (loop52 a s3).1 + (loop52 a s3).2.1 = a := by
  intro s3
  induction s3 with
  | zero => intro a; simp [loop52]
  | succ s ih =>
    intro a
    by_cases h52 : 52 ≤ a
    · have := ih (a - 52)
      simp only [loop52, if_pos h52]
      omega
    · simp [loop52, h52]

/-- The 26-tone reservation loop consumes exactly 26 tones per unit. -/
theorem loop26_budget : ∀ (s4 a : Nat),
    26 * (loop26 a s4).1 + (loop26 a s4).2.1 = a := by
  intro s4
  induction s4 with
  | zero => intro a; simp [loop26]
  | succ s ih =>
    intro a
    by_cases h26 : 26 ≤ a
    · have := ih (a - 26)
      simp only [loop26, if_pos h26]
      omega
    · simp [loop26, h26]

/-- The budget phase starts from `a = 242 − 26·size2` and every
reservation is paid for out of that budget. -/
theorem phase1_budget (size2 size3 size4 : Nat) :
    106 * (phase1 size2 size3 size4).1 + 52 * (phase1 size2 size3 size4).2.1 +
      26 * (phase1 size2 size3 size4).2.2.1 + (phase1 size2 size3 size4).2.2.2 =
      242 - 26 * size2 := by
  simp only [phase1]
  by_cases hc : 106 ≤ 242 - 26 * size2 ∧ 0 < size3
  · rw [if_pos hc]
    simp only
    have h52 := loop52_budget (size3 - 1) (242 - 26 * size2 - 106)
    have h26 := loop26_budget size4 (loop52 (242 - 26 * size2 - 106) (size3 - 1)).2.1
    omega
  · rw [if_neg hc]
    simp only
    have h52 := loop52_budget size3 (242 - 26 * size2)
    have h26 := loop26_budget size4 (loop52 (242 - 26 * size2) size3).2.1
    omega

/-- The tail of the mixed branch emits the fix-up entry `(RU26, 5)`
exactly once when the 26-tone count is odd and never otherwise, provided
the first-member prefix contains no such entry. -/
theorem mixedTail_count5 (a26 n52r : Nat) (d1 : List Candidate)
    (e1 : List (RuType × Nat)) (on1 ht1 brest : List Candidate)
    (rus : List (RuType × Nat)) (d' : List Candidate)
    (he1 : e1.count (RU26, 5) = 0)
    (h : mixedTail a26 n52r d1 e1 on1 ht1 brest = some (rus, d')) :
    rus.count (RU26, 5) = if a26 % 2 ≠ 0 then 1 else 0 := by
  simp only [mixedTail] at h
  split at h
  · exact absurd h (by simp)
  · rename_i d2 e2 on2 ht2 heq
    have he2 : e2.count (RU26, 5) = if a26 % 2 ≠ 0 then 1 else 0 := by
      unfold oddFix at heq
      split at heq
      · rename_i hoddc
        rw [if_pos hoddc]
        split at heq <;>
          first
            | (simp only [Option.some.injEq, Prod.mk.injEq] at heq
               obtain ⟨-, h2, -, -⟩ := heq
               simp [← h2])
            | exact absurd heq (by simp)
      · rename_i hoddc
        rw [if_neg hoddc]
        simp only [Option.some.injEq, Prod.mk.injEq] at heq
        obtain ⟨-, h2, -, -⟩ := heq
        simp [← h2]
    split at h
    · exact absurd h (by simp)
    · rename_i d3 e3 brem heq3
      have he3 : e3.count (RU26, 5) = 0 := by
        rw [List.count_eq_zero]
        intro hmem
        have h52 := (emitCount_spec RU52 n52r 3 brest d3 brem e3 heq3).2 _ hmem
        simp at h52
      have hin2 : 6 ≤ (if 0 < n52r then 8 else 6) := by split <;> omega
      have he4 := emit26B_count5 (if a26 % 2 ≠ 0 then a26 - 1 else a26)
        (if 0 < n52r then 8 else 6) on2 hin2
      have hidx := (emit26B_spec (if a26 % 2 ≠ 0 then a26 - 1 else a26)
        (if 0 < n52r then 8 else 6) on2).2.1
      have he5 := emit26B_count5
        (emit26B (if 0 < n52r then 8 else 6)
          (if a26 % 2 ≠ 0 then a26 - 1 else a26) on2).cnt
        (emit26B (if 0 < n52r then 8 else 6)
          (if a26 % 2 ≠ 0 then a26 - 1 else a26) on2).idx
        ht2 (by omega)
      simp only [Option.some.injEq, Prod.mk.injEq] at h
      obtain ⟨h1, -⟩ := h
      subst h1
      simp only [List.count_append, he1, he2, he3, he4, he5]
      omega

/-- Position of the fix-up entry in the 106-tone first-member path: it
sits right after the 106-tone entry, and its paired candidate is the
first remaining class-2 member if one exists, else the first class-3
member. -/
theorem mixedTail_pos_106 (a26 n52r : Nat) (b0 : Candidate)
    (on1 ht1 brest : List Candidate) (rus : List (RuType × Nat))
    (d' : List Candidate) (hodd : a26 % 2 ≠ 0)
    (h : mixedTail a26 n52r [b0] [(RU106, 1)] on1 ht1 brest = some (rus, d')) :
    rus.get? 1 = some (RU26, 5) ∧
      d'.get? 1 = (if on1 = [] then ht1.get? 0 else on1.get? 0) := by
  simp only [mixedTail] at h
  cases on1 with
  | cons x xs =>
    have hof : oddFix a26 (x :: xs) ht1 = some ([x], [(RU26, 5)], xs, ht1) := by
      simp [oddFix, hodd]
    rw [hof] at h
    simp only at h
    split at h
    · exact absurd h (by simp)
    · rename_i d3 e3 brem heq3
      simp only [Option.some.injEq, Prod.mk.injEq] at h
      obtain ⟨h1, h2⟩ := h
      subst h1
      subst h2
      simp [List.get?]
  | nil =>
    cases ht1 with
    | nil =>
      have hof : oddFix a26 ([] : List Candidate) [] = none := by
        simp [oddFix, hodd]
      rw [hof] at h
      exact absurd h (by simp)
    | cons y ys =>
      have hof : oddFix a26 ([] : List Candidate) (y :: ys) =
          some ([y], [(RU26, 5)], [], ys) := by
        simp [oddFix, hodd]
      rw [hof] at h
      simp only at h
      split at h
      · exact absurd h (by simp)
      · rename_i d3 e3 brem heq3
        simp only [Option.some.injEq, Prod.mk.injEq] at h
        obtain ⟨h1, h2⟩ := h
        subst h1
        subst h2
        simp [List.get?]

/-- Position of the fix-up entry in the 52-tone first-member path: it
sits right after the 52-tone entry and the two index-3/4 26-tone
entries, and its paired candidate is the third class-2 member. -/
theorem mixedTail_pos_52 (a26 n52r : Nat) (b0 a1 a2 a3 : Candidate)
    (os ht1 brest : List Candidate) (rus : List (RuType × Nat))
    (d' : List Candidate) (hodd : a26 % 2 ≠ 0)
    (h : mixedTail a26 n52r [b0, a1, a2] [(RU52, 1), (RU26, 3), (RU26, 4)]
      (a3 :: os) ht1 brest = some (rus, d')) :
    rus.get? 3 = some (RU26, 5) ∧ d'.get? 3 = some a3 := by
  simp only [mixedTail] at h
  have hof : oddFix a26 (a3 :: os) ht1 = some ([a3], [(RU26, 5)], os, ht1) := by
    simp [oddFix, hodd]
  rw [hof] at h
  simp only at h
  split at h
  · exact absurd h (by simp)
  · rename_i d3 e3 brem heq3
    simp only [Option.some.injEq, Prod.mk.injEq] at h
    obtain ⟨h1, h2⟩ := h
    subst h1
    subst h2
    simp [List.get?]

/-- C8: in the mixed small-class packing branch the tone budget after the
initial 26-tone reservation is `a = 242 − 26·(class-2 count)` — every
106/52/26-tone reservation of the budget phase is paid out of exactly
that budget, with `aRem` left over — and whenever the 26-tone unit count
(class-2 count plus the extra 26-tone units) is odd after the
first-member assignment, exactly one additional member is consumed into a
26-tone allocation entry with index 5 (the entry occurs exactly once when
the count is odd and never otherwise), drawn from class 2 if a member
remains at that point and otherwise from class 3, leaving an even
remaining 26-tone count. -/
theorem claim_C8 (onoff bulksend http : List Candidate) (n106 n52 n26a aRem : Nat)
    (hp : phase1 onoff.length bulksend.length http.length = (n106, n52, n26a, aRem))
    (hsz2 : onoff.length ≤ 7) (hb : bulksend ≠ []) :
    106 * n106 + 52 * n52 + 26 * n26a + aRem = 242 - 26 * onoff.length ∧
    (∀ (rus : List (RuType × Nat)) (d' : List Candidate),
      mixedBranch onoff bulksend http = some (rus, d') →
      rus.count (RU26, 5) = (if (onoff.length + n26a) % 2 ≠ 0 then 1 else 0) ∧
      ((onoff.length + n26a) % 2 ≠ 0 →
        (onoff.length + n26a - 1) % 2 = 0 ∧
        (n106 = 1 → rus.get? 1 = some (RU26, 5) ∧
          d'.get? 1 = (if onoff = [] then http.get? 0 else onoff.get? 0)) ∧
        (n106 = 0 → rus.get? 3 = some (RU26, 5) ∧ d'.get? 3 = onoff.get? 2))) := by
  constructor
  · have hb1 := phase1_budget onoff.length bulksend.length http.length
    rw [hp] at hb1
    simpa using hb1
  · intro rus d' h
    cases bulksend with
    | nil => exact absurd rfl hb
    | cons b0 brest =>
      simp only [mixedBranch, hp] at h
      by_cases hn106 : 0 < n106
      · rw [if_pos hn106] at h
        refine ⟨mixedTail_count5 _ _ _ _ _ _ _ _ _ (by decide) h, ?_⟩
        intro hodd
        refine ⟨by omega, ?_, ?_⟩
        · intro _
          exact mixedTail_pos_106 _ _ _ _ _ _ _ _ hodd h
        · intro h0
          omega
      · rw [if_neg hn106] at h
        have hlen0 : 0 < (b0 :: brest).length := by simp
        have hcondn : ¬(106 ≤ 242 - 26 * onoff.length ∧ 0 < (b0 :: brest).length) := by
          intro hc
          have h1 : (phase1 onoff.length (b0 :: brest).length http.length).1 = 1 := by
            simp [phase1, hc.1]
          rw [hp] at h1
          simp at h1
          omega
        have h6 : 6 ≤ onoff.length := by
          have hno : ¬(106 ≤ 242 - 26 * onoff.length) := fun hx => hcondn ⟨hx, hlen0⟩
          omega
        obtain ⟨a1, a2, a3, os, rfl⟩ :
            ∃ a1 a2 a3 os, onoff = a1 :: a2 :: a3 :: os := by
          rcases onoff with - | ⟨a1, - | ⟨a2, - | ⟨a3, os⟩⟩⟩
          · simp at h6
          · simp at h6
          · simp at h6
          · exact ⟨a1, a2, a3, os, rfl⟩
        have hu1 : uLoop (a1 :: a2 :: a3 :: os) 2 3 =
            ⟨[a1, a2], [(RU26, 3), (RU26, 4)], a3 :: os, 0, 5⟩ := rfl
        have hu2 : uLoop http 0 5 = ⟨[], [], http, 0, 5⟩ := by
          cases http <;> rfl
        rw [hu1] at h
        simp only at h
        rw [hu2] at h
        simp only [List.append_nil] at h
        refine ⟨mixedTail_count5 _ _ _ _ _ _ _ _ _ (by decide) h, ?_⟩
        intro hodd
        refine ⟨by omega, ?_, ?_⟩
        · intro h1
          omega
        · intro _
          have hpos := mixedTail_pos_52 _ _ _ _ _ _ _ _ _ _ _ hodd h
          simpa [List.get?] using hpos

/-- Witness for C8: one class-2 member, one class-1 member, no class-3
members — the 106-tone unit is reserved, the 26-tone count 1 is odd, and
the fix-up entry `(RU26, 5)` appears exactly once, paired with the
class-2 member. -/
theorem claim_C8_witness :
    106 * 1 + 52 * 0 + 26 * 0 + 110 = 242 - 26 * ([mkC 2 60] : List Candidate).length ∧
      ([(RU106, 1), (RU26, 5)] : List (RuType × Nat)).count (RU26, 5) = 1 := by
  have hc8 := claim_C8 [mkC 2 60] [mkC 1 50] [] 1 0 0 110 (by decide) (by decide)
    (by decide)
  refine ⟨hc8.1, ?_⟩
  have h2 := (hc8.2 [(RU106, 1), (RU26, 5)] [mkC 1 50, mkC 2 60] (by decide)).1
  rw [h2]
  decide

end RrOfdma
